import Mathlib

/-!
# Verification of the tql SQL column-mapping engine and its sqlfmt quoting subsystem

This file gives a shallow embedding, in Lean 4, of the Go sources of the
`tql` repository:

* `sqlfmt/needsutf8/needsutf8.go` — batched classifier for "does this string
  contain a byte with the high bit set";
* `sqlfmt/issimple/issimple.go` — batched classifier for "is this string free
  of bytes that would need escaping";
* `sqlfmt/quote.go` — the SQL string-literal quoter;
* `tql.go` — the `Parse` column mapper / SQL rewriter together with its
  regex helpers (`selectRegex`, `containsWords`, `matchesContainsWords`,
  `parseTQLTag`, `toSelectedField`) and the CTE check of `New`.

Strings handled byte-wise in Go (the quoting subsystem) are modelled as
`List Nat` of byte values; strings handled text-wise (the SQL mapper, whose
inputs in all claims are ASCII) are modelled as `List Char`.

Go loops that return early are modelled by recursive functions; a Go panic
(out-of-range index) is modelled by `Option` with `none` for the panic.
-/

/-- Byte of `s` at index `i` (Go indexing; every access performed by the
sources modelled here is in range, the default is never observed). -/
def byteAt (s : List Nat) (i : Nat) : Nat := s.getD i 0

namespace needsutf8

/-- `Naive` (needsutf8.go lines 3–10): true iff some byte is ≥ 0x80. -/
def Naive : List Nat → Bool
  | [] => false
  | b :: bs => if 0x80 ≤ b then true else Naive bs

/-- The first loop of `Unroll8` (lines 14–18): scan the bytes from index `k`
to the end, returning true on the first byte ≥ 0x80. -/
def tailHasHigh (s : List Nat) (k : Nat) : Bool :=
  (s.drop k).any (fun b => 0x80 ≤ b)

/-- The packed little-endian word `u0` built in the body of the second loop
of `Unroll8` (line 22). -/
def pack8 (s : List Nat) (i : Nat) : Nat :=
  byteAt s i ||| byteAt s (i+1) <<< 8 ||| byteAt s (i+2) <<< 16 |||
  byteAt s (i+3) <<< 24 ||| byteAt s (i+4) <<< 32 ||| byteAt s (i+5) <<< 40 |||
  byteAt s (i+6) <<< 48 ||| byteAt s (i+7) <<< 56

/-- The second loop of `Unroll8` (lines 21–24):
`for i := 0; i < len(s)-off; i += 4 { u0 := ...; return u0&0x8080808080808080 != 0 }`.
The loop body ends in an unconditional `return`, so when the loop is entered
at all only its first iteration (`i = 0`) executes. -/
def unroll8Loop (s : List Nat) (i stop : Nat) : Bool :=
  if i < stop then pack8 s i &&& 0x8080808080808080 != 0 else false

/-- `Unroll8` (needsutf8.go lines 12–26). `len(s) % 8` is `off`; the first
loop scans the final `off` bytes; the second loop examines the packed word of
bytes `0..7` and returns unconditionally. -/
def Unroll8 (s : List Nat) : Bool :=
  if tailHasHigh s (s.length - s.length % 8) then true
  else unroll8Loop s 0 (s.length - s.length % 8)

end needsutf8

namespace issimple

/-- `chk` (issimple.go lines 3–24): 1 when the byte is printable ASCII and is
none of the must-escape bytes, 0 otherwise. -/
def chk (b : Nat) : Nat :=
  if b < 0x20 ∨ 0x7E < b then 0
  else if b = 39 ∨ b = 92 ∨ b = 7 ∨ b = 8 ∨ b = 12 ∨ b = 10 ∨ b = 13 ∨
          b = 9 ∨ b = 11 ∨ b = 0 ∨ b = 0x1a ∨ b = 37 ∨ b = 95 then 0
  else 1

/-- `Naive` (issimple.go lines 26–33). -/
def Naive : List Nat → Bool
  | [] => true
  | b :: bs => if chk b = 0 then false else Naive bs

/-- The first loop of `Unroll16` (lines 38–43): scan bytes from index `k`;
the loop returns false on the first byte with `chk = 0`. -/
def tailSimple (s : List Nat) (k : Nat) : Bool :=
  (s.drop k).all (fun b => chk b ≠ 0)

/-- The 16-bit mask of `chk` values built in the body of the second loop of
`Unroll16` (line 56). -/
def chk16 (s : List Nat) (i : Nat) : Nat :=
  chk (byteAt s i) ||| chk (byteAt s (i+1)) <<< 1 ||| chk (byteAt s (i+2)) <<< 2 |||
  chk (byteAt s (i+3)) <<< 3 ||| chk (byteAt s (i+4)) <<< 4 ||| chk (byteAt s (i+5)) <<< 5 |||
  chk (byteAt s (i+6)) <<< 6 ||| chk (byteAt s (i+7)) <<< 7 ||| chk (byteAt s (i+8)) <<< 8 |||
  chk (byteAt s (i+9)) <<< 9 ||| chk (byteAt s (i+10)) <<< 10 ||| chk (byteAt s (i+11)) <<< 11 |||
  chk (byteAt s (i+12)) <<< 12 ||| chk (byteAt s (i+13)) <<< 13 ||| chk (byteAt s (i+14)) <<< 14 |||
  chk (byteAt s (i+15)) <<< 15

/-- The second loop of `Unroll16` (lines 54–59): `for i := range s` iterates
`i` over every index of `s` (the first argument mirrors `s`, the second the
remaining iterations). The body first evaluates `_ = s[i+15]`, which panics
(`none`) when `i+15` is out of range, then returns false when the combined
`chk` mask is nonzero. -/
def unroll16Loop (s : List Nat) : List Nat → Nat → Option Bool
  | [], _ => some true
  | _ :: rest, i =>
      if i + 15 < s.length then
        if chk16 s i ≠ 0 then some false else unroll16Loop s rest (i+1)
      else none

/-- `Unroll16` (issimple.go lines 37–61). `len(s) & 15` equals
`len(s) % 16`; the tail loop returns false early on a non-simple byte
(modelled by the outer `if`); after it the source re-slices `s = s[off:]`
and runs the 16-at-a-time loop over the sliced string. -/
def Unroll16 (s : List Nat) : Option Bool :=
  if tailSimple s (s.length - s.length % 16) then
    if s.length = s.length % 16 then some true
    else unroll16Loop (s.drop (s.length % 16)) (s.drop (s.length % 16)) 0
  else some false

end issimple

namespace sqlfmt

/-- `NeedsUTF8` (quote.go lines 71–79) delegates to `needsutf8.Unroll8`. -/
def NeedsUTF8 (s : List Nat) : Bool := needsutf8.Unroll8 s

/-- `IsSimple` (quote.go lines 67–69) delegates to `issimple.Unroll16`
(`none` models a Go panic inside the classifier). -/
def IsSimple (s : List Nat) : Option Bool := issimple.Unroll16 s

/-- The bytes appended for one input byte by the `switch` in the body of the
quoting loop (quote.go lines 28–59). -/
def escByte (b : Nat) : List Nat :=
  if b = 7 then [92, 97]          -- bell -> backslash a
  else if b = 8 then [92, 98]     -- backspace -> backslash b
  else if b = 12 then [92, 102]   -- form feed -> backslash f
  else if b = 10 then [92, 110]   -- newline -> backslash n
  else if b = 13 then [92, 114]   -- carriage return -> backslash r
  else if b = 9 then [92, 116]    -- tab -> backslash t
  else if b = 11 then [92, 118]   -- vertical tab -> backslash v
  else if b = 92 then [92, 92]    -- backslash doubled
  else if b = 39 then [92, 39]    -- single quote escaped
  else if b = 0 then [92, 48]     -- NUL -> backslash 0
  else if b = 26 then [92, 90]    -- SUB -> backslash Z
  else if b = 37 then [92, 37]    -- percent escaped
  else if b = 95 then [92, 95]    -- underscore escaped
  else [b]

/-- The bytes of the `"utf8mb4"` charset marker (quote.go line 23). -/
def utf8mb4Marker : List Nat := [117, 116, 102, 56, 109, 98, 52]

/-- `Quote` (quote.go lines 16–63). `scratch = scratch[:0]` discards the
contents of the caller-supplied buffer (its capacity only affects
allocation, never the produced bytes), so the result does not depend on
the incoming `scratch`. -/
def Quote (_scratch s : List Nat) : List Nat :=
  -- scratch[:0], then conditional utf8mb4 marker, opening quote, the
  -- escaping loop over the bytes of s, closing quote
  (if NeedsUTF8 s then utf8mb4Marker else []) ++ [39] ++ (s.map escByte).flatten ++ [39]

/-- `QuoteIfNeeded` (quote.go lines 83–90): the fast path appends
`'` + s + `'` to `scratch` without resetting it; otherwise `Quote` runs.
A panic inside `IsSimple` propagates (`none`). -/
def QuoteIfNeeded (scratch s : List Nat) : Option (List Nat) :=
  match IsSimple s with
  | some true => some (scratch ++ [39] ++ s ++ [39])
  | some false => some (Quote scratch s)
  | none => none

end sqlfmt

/-! ## Inputs exhibiting the batch-classifier bugs -/

/-- Sixteen bytes: fifteen `'a'` bytes followed by `0x80`. -/
def s16high : List Nat := [97,97,97,97,97,97,97,97,97,97,97,97,97,97,97,128]

/-- Sixteen `'a'` bytes. -/
def s16simple : List Nat := [97,97,97,97,97,97,97,97,97,97,97,97,97,97,97,97]

/-- C2: the claim states `needsutf8.Unroll8` agrees with `needsutf8.Naive`
on every string, including strings longer than one 8-byte batch. It does
not: on a 16-byte string whose only high byte sits at index 15 — outside
both the (empty) tail scan and the first 8-byte batch — the batch loop
returns after examining only bytes 0–7, and `Unroll8` answers `false` while
`Naive` answers `true`. -/
theorem needsutf8_unroll8_disagrees_with_naive :
    needsutf8.Unroll8 s16high = false ∧ needsutf8.Naive s16high = true := by decide

/-- C3: the claim states `issimple.Unroll16` agrees with `issimple.Naive` on
every string. It does not: on sixteen `'a'` bytes (all simple) the batch
loop's condition `chk(..)|chk(..)<<1|... != 0` is satisfied precisely
because the bytes are simple (`chk = 1`), so `Unroll16` answers `false`
while `Naive` answers `true`. -/
theorem issimple_unroll16_disagrees_with_naive :
    issimple.Unroll16 s16simple = some false ∧ issimple.Naive s16simple = true := by decide

/-- C4: the claim states the quoted literal carries the `utf8mb4` marker iff
some input byte has the high bit set. On `s16high` the byte `0x80` at index
15 is missed by `NeedsUTF8` (the `Unroll8` bug of C2), so `Quote` emits the
literal without the marker even though a high byte is present. -/
theorem quote_missing_utf8_marker :
    sqlfmt.Quote [] s16high = [39] ++ s16high ++ [39] ∧
    needsutf8.Naive s16high = true := by decide

/-! ## C5: the fast path agrees with the full escaping path -/

/-- The 16-at-a-time loop never completes normally on a nonempty slice: each
iteration either returns `some false`, panics (`none`), or continues, and
near the end of the slice `i+15` is out of range. -/
theorem unroll16Loop_ne_some_true (s : List Nat) :
    ∀ rest i, rest ≠ [] → i + rest.length = s.length →
      issimple.unroll16Loop s rest i ≠ some true := by
  intro rest
  induction rest with
  | nil => intro i h _; exact absurd rfl h
  | cons x rest ih =>
      intro i _ hlen
      simp only [issimple.unroll16Loop]
      by_cases hb : i + 15 < s.length
      · rw [if_pos hb]
        by_cases hc : issimple.chk16 s i ≠ 0
        · rw [if_pos hc]; simp
        · rw [if_neg hc]
          rcases rest with _ | ⟨y, rest'⟩
          · simp only [List.length_cons, List.length_nil] at hlen
            omega
          · refine ih (i+1) (by simp) ?_
            simp only [List.length_cons] at hlen ⊢
            omega
      · rw [if_neg hb]; simp

/-- Characterisation of the strings accepted by `Unroll16`: because the
batch loop can never answer `true`, acceptance means the whole string was
handled by the per-byte tail scan, i.e. the length is below 16 and every
byte is simple. -/
theorem unroll16_some_true_iff (s : List Nat) :
    issimple.Unroll16 s = some true ↔ s.length < 16 ∧ ∀ b ∈ s, issimple.chk b ≠ 0 := by
  have hmod : s.length % 16 < 16 := Nat.mod_lt _ (by norm_num)
  unfold issimple.Unroll16
  by_cases ht : issimple.tailSimple s (s.length - s.length % 16) = true
  · rw [if_pos ht]
    by_cases hl : s.length = s.length % 16
    · rw [if_pos hl]
      have hlen : s.length < 16 := by omega
      constructor
      · intro _
        refine ⟨hlen, fun b hb => ?_⟩
        have h0 : s.length - s.length % 16 = 0 := by omega
        unfold issimple.tailSimple at ht
        rw [h0] at ht
        simp only [List.drop_zero, List.all_eq_true] at ht
        simpa using ht b hb
      · intro _; rfl
    · rw [if_neg hl]
      have hge : 16 ≤ s.length := by
        rcases Nat.lt_or_ge s.length 16 with h | h
        · exact absurd (Nat.mod_eq_of_lt h).symm hl
        · exact h
      have hne : s.drop (s.length % 16) ≠ [] := by
        intro hnil
        have := congrArg List.length hnil
        simp only [List.length_drop, List.length_nil] at this
        omega
      constructor
      · intro habs
        exact absurd habs
          (unroll16Loop_ne_some_true (s.drop (s.length % 16)) (s.drop (s.length % 16)) 0 hne
            (by simp))
      · intro h16
        omega
  · rw [if_neg ht]
    constructor
    · intro h
      simp at h
    · intro ⟨_, hall⟩
      exfalso
      apply ht
      unfold issimple.tailSimple
      simp only [List.all_eq_true]
      intro b hb
      have : b ∈ s := List.mem_of_mem_drop hb
      simpa using hall b this

/-- A simple byte is inside the printable range and is none of the escape
cases, so the quoting loop copies it unchanged. -/
theorem escByte_of_chk_ne_zero {b : Nat} (h : issimple.chk b ≠ 0) :
    sqlfmt.escByte b = [b] := by
  unfold issimple.chk at h
  by_cases h1 : b < 0x20 ∨ 0x7E < b
  · rw [if_pos h1] at h; exact absurd rfl h
  · rw [if_neg h1] at h
    by_cases h2 : b = 39 ∨ b = 92 ∨ b = 7 ∨ b = 8 ∨ b = 12 ∨ b = 10 ∨ b = 13 ∨
        b = 9 ∨ b = 11 ∨ b = 0 ∨ b = 0x1a ∨ b = 37 ∨ b = 95
    · rw [if_pos h2] at h; exact absurd rfl h
    · push_neg at h1 h2
      obtain ⟨hb1, hb2⟩ := h1
      obtain ⟨e1, e2, e3, e4, e5, e6, e7, e8, e9, e10, e11, e12, e13⟩ := h2
      unfold sqlfmt.escByte
      split_ifs <;> first | rfl | omega

/-- A simple byte is ≤ 0x7E, in particular below 2^7. -/
theorem lt_128_of_chk_ne_zero {b : Nat} (h : issimple.chk b ≠ 0) : b < 128 := by
  unfold issimple.chk at h
  by_cases h1 : b < 0x20 ∨ 0x7E < b
  · rw [if_pos h1] at h; exact absurd rfl h
  · push_neg at h1
    omega

/-- `getD` of a list of bytes below 128 stays below 128. -/
theorem getD_lt_128 : ∀ (l : List Nat) (j : Nat), (∀ b ∈ l, b < 128) → l.getD j 0 < 128
  | [], j, _ => by simp [List.getD]
  | b :: bs, 0, h => by simpa using h b (by simp)
  | _ :: bs, j+1, h => by
      simpa using getD_lt_128 bs j (fun x hx => h x (by simp [hx]))

/-- A byte below 2^7 shifted to a byte lane carries no bit of the
`0x8080808080808080` high-bit mask. -/
theorem shift_land_mask_eq_zero {b : Nat} (hb : b < 128) {k : Nat}
    (hk : k = 0 ∨ k = 8 ∨ k = 16 ∨ k = 24 ∨ k = 32 ∨ k = 40 ∨ k = 48 ∨ k = 56) :
    b <<< k &&& 0x8080808080808080 = 0 := by
  apply Nat.eq_of_testBit_eq
  intro i
  rw [Nat.testBit_land, Nat.testBit_shiftLeft, Nat.zero_testBit]
  by_cases hik : k ≤ i
  · by_cases hi7 : i - k < 7
    · have hm : Nat.testBit 0x8080808080808080 i = false := by
        rcases hk with h | h | h | h | h | h | h | h <;>
          · have hup : i < k + 7 := by omega
            subst h
            interval_cases i <;> decide
      rw [hm, Bool.and_false]
    · have h7 : 7 ≤ i - k := by omega
      have hpow : (128 : Nat) ≤ 2 ^ (i - k) := by
        calc (128 : Nat) = 2 ^ 7 := by norm_num
        _ ≤ 2 ^ (i - k) := Nat.pow_le_pow_right (by norm_num) h7
      have hbf : b.testBit (i - k) = false :=
        Nat.testBit_eq_false_of_lt (lt_of_lt_of_le hb hpow)
      rw [hbf, Bool.and_false, Bool.false_and]
  · have : decide (i ≥ k) = false := by
      simp only [ge_iff_le, decide_eq_false_iff_not]
      exact hik
    rw [this, Bool.false_and, Bool.false_and]

/-- If every byte of `s` is below 0x80 then the packed word of `Unroll8`
carries no high bit. -/
theorem pack8_land_mask_eq_zero {s : List Nat} (h : ∀ b ∈ s, b < 128) (i : Nat) :
    needsutf8.pack8 s i &&& 0x8080808080808080 = 0 := by
  have hb : ∀ j, byteAt s j < 128 := fun j => getD_lt_128 s j h
  have comb : ∀ x y : Nat, x &&& 0x8080808080808080 = 0 →
      y &&& 0x8080808080808080 = 0 → (x ||| y) &&& 0x8080808080808080 = 0 := by
    intro x y hx hy
    apply Nat.eq_of_testBit_eq
    intro t
    have hx' := congrArg (fun n => n.testBit t) hx
    have hy' := congrArg (fun n => n.testBit t) hy
    simp only [Nat.testBit_land, Nat.zero_testBit] at hx' hy'
    rw [Nat.testBit_land, Nat.testBit_lor, Nat.zero_testBit]
    cases hm : Nat.testBit 0x8080808080808080 t with
    | false => rw [Bool.and_false]
    | true =>
        rw [hm, Bool.and_true] at hx' hy'
        rw [hx', hy', Bool.or_false, Bool.false_and]
  have b0 : byteAt s i &&& 0x8080808080808080 = 0 := by
    have := shift_land_mask_eq_zero (hb i) (Or.inl rfl)
    simpa using this
  unfold needsutf8.pack8
  exact comb _ _ (comb _ _ (comb _ _ (comb _ _ (comb _ _ (comb _ _ (comb _ _ b0
    (shift_land_mask_eq_zero (hb (i+1)) (by tauto)))
    (shift_land_mask_eq_zero (hb (i+2)) (by tauto)))
    (shift_land_mask_eq_zero (hb (i+3)) (by tauto)))
    (shift_land_mask_eq_zero (hb (i+4)) (by tauto)))
    (shift_land_mask_eq_zero (hb (i+5)) (by tauto)))
    (shift_land_mask_eq_zero (hb (i+6)) (by tauto)))
    (shift_land_mask_eq_zero (hb (i+7)) (by tauto))

/-- A string of bytes all below 0x80 is classified as not needing UTF-8. -/
theorem unroll8_eq_false_of_ascii {s : List Nat} (h : ∀ b ∈ s, b < 128) :
    needsutf8.Unroll8 s = false := by
  unfold needsutf8.Unroll8
  have ht : needsutf8.tailHasHigh s (s.length - s.length % 8) = false := by
    unfold needsutf8.tailHasHigh
    rw [List.any_eq_false]
    intro b hb
    have hblt := h b (List.mem_of_mem_drop hb)
    simp only [decide_eq_true_eq]
    omega
  rw [ht]
  simp only [Bool.false_eq_true, if_false]
  unfold needsutf8.unroll8Loop
  by_cases hs : 0 < s.length - s.length % 8
  · rw [if_pos hs, pack8_land_mask_eq_zero h 0]
    decide
  · rw [if_neg hs]

/-- Simple bytes pass through the escaping loop unchanged. -/
theorem flatten_escByte_of_simple :
    ∀ (l : List Nat), (∀ b ∈ l, issimple.chk b ≠ 0) →
      (l.map sqlfmt.escByte).flatten = l
  | [], _ => by simp
  | b :: bs, h => by
      simp only [List.map_cons, List.flatten_cons]
      rw [escByte_of_chk_ne_zero (h b (by simp)),
        flatten_escByte_of_simple bs (fun x hx => h x (by simp [hx]))]
      simp

/-- C5: whenever the classifier accepts a string, the fast path of
`QuoteIfNeeded` and the full escaping path of `Quote` both produce exactly
the single-quoted string, unchanged. -/
theorem quote_fastpath_agrees (s : List Nat) (h : sqlfmt.IsSimple s = some true) :
    sqlfmt.QuoteIfNeeded [] s = some ([39] ++ s ++ [39]) ∧
    sqlfmt.Quote [] s = [39] ++ s ++ [39] := by
  have hch : ∀ b ∈ s, issimple.chk b ≠ 0 := ((unroll16_some_true_iff s).mp h).2
  have hascii : ∀ b ∈ s, b < 128 := fun b hb => lt_128_of_chk_ne_zero (hch b hb)
  have hq : sqlfmt.Quote [] s = [39] ++ s ++ [39] := by
    unfold sqlfmt.Quote
    rw [show sqlfmt.NeedsUTF8 s = false from unroll8_eq_false_of_ascii hascii]
    rw [flatten_escByte_of_simple s hch]
    simp
  refine ⟨?_, hq⟩
  unfold sqlfmt.QuoteIfNeeded
  rw [show sqlfmt.IsSimple s = some true from h]
  simp

/-- Witness for C5 at the concrete string "abc". -/
theorem quote_fastpath_agrees_witness :
    sqlfmt.IsSimple [97, 98, 99] = some true ∧
    (sqlfmt.QuoteIfNeeded [] [97, 98, 99] = some ([39] ++ [97, 98, 99] ++ [39]) ∧
     sqlfmt.Quote [] [97, 98, 99] = [39] ++ [97, 98, 99] ++ [39]) :=
  ⟨by decide, quote_fastpath_agrees [97, 98, 99] (by decide)⟩

/-!
## The tql column mapper (tql.go)

SQL texts and identifiers are modelled as `List Char` (the claims' inputs
are ASCII). The Go regular expressions are embedded as direct scanning
functions with the exact leftmost-first matching semantics of Go's regexp
package for the fixed patterns the source compiles.
-/

namespace tql

abbrev Str := List Char

/-- regexp `\w`: ASCII letters, digits and underscore. -/
def isWordChar (c : Char) : Bool := c.isAlphanum || c = '_'

/-- regexp `\s`: tab, newline, form feed, carriage return, space. -/
def isReSpace (c : Char) : Bool :=
  c = '\t' || c = '\n' || c = '\x0c' || c = '\r' || c = ' '

/-- `unicode.IsSpace` on the ASCII range (used by `strings.TrimSpace`). -/
def isGoSpace (c : Char) : Bool :=
  c = ' ' || c = '\t' || c = '\n' || c = '\x0b' || c = '\x0c' || c = '\r'

/-- `strings.TrimSpace`. -/
def trimSpace (s : Str) : Str :=
  ((s.dropWhile isGoSpace).reverse.dropWhile isGoSpace).reverse

/-- `strings.Index`: position of the first occurrence of `pat`. -/
def subIndex (pat : Str) : Str → Option Nat
  | [] => if pat.isPrefixOf ([] : Str) then some 0 else none
  | c :: rest =>
      if pat.isPrefixOf (c :: rest) then some 0
      else (subIndex pat rest).map (· + 1)

/-- `strings.Replace(s, old, new, 1)`: replace the first occurrence. -/
def replaceFirst (s old new : Str) : Str :=
  match subIndex old s with
  | none => s
  | some i => s.take i ++ new ++ s.drop (i + old.length)

/-- Worker for `goSplit` (fuel bounds the number of separator occurrences,
each consuming at least one character of a nonempty separator). -/
def goSplitGo (sep : Str) : Nat → Str → List Str
  | 0, s => [s]
  | fuel+1, s =>
      match subIndex sep s with
      | none => [s]
      | some i => s.take i :: goSplitGo sep fuel (s.drop (i + sep.length))

/-- `strings.Split(s, sep)` for a nonempty separator. -/
def goSplit (sep : Str) (s : Str) : List Str := goSplitGo sep (s.length + 1) s

/-- `strings.Join(parts, sep)`. -/
def goJoin (sep : Str) : List Str → Str
  | [] => []
  | [x] => x
  | x :: y :: xs => x ++ sep ++ goJoin sep (y :: xs)

/-! ### tagRegex: `(\w+)(?:=([^;]*))?` -/

/-- One submatch of `tagRegex`: the full match, the `\w+` key and the
(possibly empty / non-participating) value group. -/
structure TagMatch where
  full : Str
  key : Str
  value : Str
deriving DecidableEq

/-- `tagRegex.FindAllStringSubmatch`: scan for maximal `\w+` runs; when `=`
follows, the optional group participates greedily up to the next `;`.
Scanning resumes at the end of each match; fuel bounds the scan. -/
def findTagMatchesGo : Nat → Str → List TagMatch
  | 0, _ => []
  | _+1, [] => []
  | fuel+1, c :: rest =>
      if isWordChar c then
        let w := (c :: rest).takeWhile isWordChar
        let afterW := (c :: rest).dropWhile isWordChar
        match afterW with
        | '=' :: rest2 =>
            let v := rest2.takeWhile (fun x => x ≠ ';')
            let rest3 := rest2.dropWhile (fun x => x ≠ ';')
            ⟨w ++ '=' :: v, w, v⟩ :: findTagMatchesGo fuel rest3
        | _ => ⟨w, w, []⟩ :: findTagMatchesGo fuel afterW
      else findTagMatchesGo fuel rest

def findTagMatches (s : Str) : List TagMatch := findTagMatchesGo (s.length + 1) s

/-- The result record of `parseTQLTag` (tql.go lines 606–609). -/
structure TagInfo where
  -- Go field `omit` (`omit` is a Lean keyword)
  omits : Str
  field : Str
deriving DecidableEq

/-- `parseTQLTag` (tql.go lines 606–625): the field name defaults to the Go
member name; a `key=value` pair with nonempty trimmed value is consulted
only for the `omit` key; a match with empty trimmed value renames the
field to the trimmed full match (the `value != "-"` guard is vacuous
there because `value` is empty). -/
def parseTQLTag (name : Str) (tag : Str) : TagInfo :=
  (findTagMatches tag).foldl
    (fun results m =>
      let value := trimSpace m.value
      if value ≠ [] then
        if trimSpace m.key = "omit".toList then { results with omits := trimSpace m.value }
        else results
      else
        { results with field := trimSpace m.full })
    { omits := [], field := name }

/-! ### containsWords: the pattern `(^|[^.])\b` + word -/

/-- Tokens of the compiled word patterns: a literal character, the `.`
metacharacter (any character except newline), or a `\b` word boundary. -/
inductive Tok
  | lit (c : Char)
  | anyc
  | wb
deriving DecidableEq

/-- Compile a word handed to `regexp.Compile` by `containsWords` into
tokens. The words `Parse` builds consist of tag-derived names (word
characters, possibly a trailing `=` kept by `parseTQLTag`), literal dots of
qualified names — which the regex engine treats as "any character" — and
the escapes `\.`, `\*`, `\b`. Characters outside this fragment are mapped
to `none`, modelling a failed compile. -/
def toToks : Str → Option (List Tok)
  | [] => some []
  | c :: rest =>
      if c = '\\' then
        match rest with
        | [] => none
        | d :: rest2 =>
            if d = '.' then (toToks rest2).map (Tok.lit '.' :: ·)
            else if d = '*' then (toToks rest2).map (Tok.lit '*' :: ·)
            else if d = 'b' then (toToks rest2).map (Tok.wb :: ·)
            else none
      else if c = '.' then (toToks rest).map (Tok.anyc :: ·)
      else if isWordChar c || c = '=' then (toToks rest).map (Tok.lit c :: ·)
      else none

def isWordOpt : Option Char → Bool
  | none => false
  | some c => isWordChar c

/-- regexp `\b`: ASCII word boundary between the previous character and the
head of the remaining input. -/
def wbOk (prev : Option Char) (s : Str) : Bool :=
  isWordOpt prev != isWordOpt s.head?

/-- Match a token list at the current position, carrying the previous
character for word boundaries. Every token consumes deterministically, so
no backtracking occurs. -/
def matchToks : List Tok → Option Char → Str → Bool
  | [], _, _ => true
  | Tok.lit c :: ts, _, s =>
      match s with
      | [] => false
      | x :: xs => decide (x = c) && matchToks ts (some x) xs
  | Tok.anyc :: ts, _, s =>
      match s with
      | [] => false
      | x :: xs => decide (x ≠ '\n') && matchToks ts (some x) xs
  | Tok.wb :: ts, prev, s => wbOk prev s && matchToks ts prev s

/-- Scan for a match of the `[^.]\b<toks>` alternative anywhere in `s`. -/
def reScan (toks : List Tok) : Str → Bool
  | [] => false
  | x :: xs =>
      (decide (x ≠ '.') && wbOk (some x) xs && matchToks toks (some x) xs) || reScan toks xs

/-- `regexp.MatchString` for the pattern `(^|[^.])\b<toks>`: either the `^`
alternative matches at the very start, or some character that is not a dot
is followed by a boundary and the tokens. -/
def reMatch (toks : List Tok) (s : Str) : Bool :=
  (wbOk none s && matchToks toks none s) || reScan toks s

/-- `containsWords` (tql.go lines 672–683): words are tried in order; a
compile failure returns false for the whole call at once. -/
def containsWords (source : Str) : List Str → Bool
  | [] => false
  | w :: rest =>
      match toToks w with
      | none => false
      | some toks => if reMatch toks source then true else containsWords source rest

/-- `matchesContainsWords` (tql.go lines 655–662): true when any match's
group contains one of the words. -/
def matchesContainsWords (ms : List Str) (words : List Str) : Bool :=
  ms.any (fun m => containsWords m words)

/-- `toSelectedField` (tql.go lines 635–645): when some comma-piece of the
original span has the shape `expr as <qualifiedName>`, preserve `expr`;
`maybeAlias[1]` is the piece between the first and second " as ". -/
def toSelectedField (qualifiedName : Str) : List Str → Str
  | [] => qualifiedName
  | f :: rest =>
      let maybeAlias := goSplit (" as ".toList) f
      if 1 < maybeAlias.length then
        if trimSpace (maybeAlias.getD 1 []) = qualifiedName then
          maybeAlias.getD 0 [] ++ " as ".toList ++ qualifiedName
        else toSelectedField qualifiedName rest
      else toSelectedField qualifiedName rest

/-! ### selectRegex: `(?m)(?is)SELECT\s+(.+?)\s+FROM\b`

Embedded with Go's leftmost-first semantics: the first `\s+` is greedy, the
group `(.+?)` is lazy, the second `\s+` is greedy, and `FROM` is matched
case-insensitively with a trailing word boundary. -/

/-- ASCII case-insensitive character comparison (the `(?i)` flag). -/
def ciEq (a b : Char) : Bool := a.toLower = b.toLower

/-- Match a literal case-insensitively at the head, returning the rest. -/
def matchCI : Str → Str → Option Str
  | [], s => some s
  | _ :: _, [] => none
  | p :: ps, c :: cs => if ciEq p c then matchCI ps cs else none

/-- Length of the maximal `\s` run at the head. -/
def wsCount : Str → Nat
  | [] => 0
  | c :: cs => if isReSpace c then wsCount cs + 1 else 0

/-- Try `\s+FROM\b` at `u` with the greedy `\s+` taking `j` characters,
backtracking down to one; returns the rest after `FROM`. Only called with
`j` at most the whitespace-run length of `u`. -/
def tryWsFrom (u : Str) : Nat → Option Str
  | 0 => none
  | j+1 =>
      match matchCI "FROM".toList (u.drop (j+1)) with
      | some rest => if !(isWordOpt rest.head?) then some rest else tryWsFrom u j
      | none => tryWsFrom u j

/-- The lazy `(.+?)`: grow the middle from `mlen` upward until
`\s+FROM\b` matches after it; returns the middle length and the rest after
`FROM`. -/
def tryMiddle (m0 : Str) : Nat → Nat → Option (Nat × Str)
  | 0, _ => none
  | fuel+1, mlen =>
      if m0.length < mlen then none
      else
        match tryWsFrom (m0.drop mlen) (wsCount (m0.drop mlen)) with
        | some rest => some (mlen, rest)
        | none => tryMiddle m0 fuel (mlen+1)

/-- The greedy first `\s+`: try `k` whitespace characters after `SELECT`,
backtracking down to one. -/
def tryK (v : Str) : Nat → Option (Nat × Nat × Str)
  | 0 => none
  | k+1 =>
      match tryMiddle (v.drop (k+1)) ((v.drop (k+1)).length + 1) 1 with
      | some (mlen, rest) => some (k+1, mlen, rest)
      | none => tryK v k

/-- Try the whole pattern at the current position; on success return the
group `(.+?)` and the rest of the input after the match. -/
def tryAt (s : Str) : Option (Str × Str) :=
  match matchCI "SELECT".toList s with
  | none => none
  | some v =>
      match tryK v (wsCount v) with
      | some (k, mlen, rest) => some ((v.drop k).take mlen, rest)
      | none => none

/-- `selectRegex.FindAllStringSubmatch(s, -1)`, group 1 of every match:
find the leftmost match, emit its group, resume after the match end. -/
def findSpansGo : Nat → Str → List Str
  | 0, _ => []
  | _+1, [] => []
  | fuel+1, c :: tail =>
      match tryAt (c :: tail) with
      | some (g, rest) => g :: findSpansGo fuel rest
      | none => findSpansGo fuel tail

def findSelectSpans (s : Str) : List Str := findSpansGo (s.length + 1) s

/-! ### The reflected record model and `Parse` -/

/-- A leaf struct field as `Parse` consumes it through reflection: its Go
name and its `tql` tag. -/
structure GoField where
  name : Str
  tag : Str
deriving DecidableEq

/-- A direct member of the result struct `T`: its Go name, its `tql` tag,
whether its type's reflect kind is `Struct` (an embedded table), and — when
it is — its own leaf fields in declaration order. -/
structure GoTopField where
  name : Str
  tag : Str
  isStruct : Bool
  fields : List GoField
deriving DecidableEq

/-- The result type `T` of `Parse[T]`: its direct members in declaration
order. -/
abbrev GoStruct := List GoTopField

/-- A top-level member viewed as a leaf (single-table mode iterates the
members of `T` itself as fields). -/
def leafOf (tf : GoTopField) : GoField := ⟨tf.name, tf.tag⟩

/-- `selectAllFromTable` (tql.go line 420): the clause selects the whole
table when the overall clause is `*` or the first span contains
`<table>\.\*`, unless some span contains `<table>\.\b` (the table was
narrowed by a subquery). -/
def saftB (ms : List Str) (span1 : Str) (selectAll : Bool) (tableName : Str) : Bool :=
  (selectAll || containsWords span1 [tableName ++ '\\' :: '.' :: '\\' :: '*' :: []]) &&
  !(matchesContainsWords ms [tableName ++ '\\' :: '.' :: '\\' :: 'b' :: []])

/-- The inner `for field := range iterStructFields(...)` loop of `Parse`
(tql.go lines 421–439): per field, skip when omitted by the field tag or
the enclosing table tag; skip when no span references it and the table is
not wildcard-selected; otherwise append the selected column text and the
index path `indices ++ [field.Index]` in lockstep. `saft` is the
per-table `selectAllFromTable` computed before the loop. -/
def fieldsLoop (ms : List Str) (splitFields : List Str) (saft : Bool)
    (tableName : Str) (indices : List Nat) (tableTag : TagInfo) :
    List GoField → Nat → List Str × List (List Nat) → List Str × List (List Nat)
  | [], _, acc => acc
  | f :: fs, j, (cols, idxs) =>
      let fieldTag := parseTQLTag f.name f.tag
      let qualifiedName := if tableName = [] then fieldTag.field
        else tableName ++ '.' :: fieldTag.field
      if fieldTag.omits = "true".toList ∨
          containsWords tableTag.omits [fieldTag.field, qualifiedName] then
        fieldsLoop ms splitFields saft tableName indices tableTag fs (j+1) (cols, idxs)
      else if ¬ matchesContainsWords ms
            [qualifiedName, tableName ++ '\\' :: '.' :: fieldTag.field, fieldTag.field] ∧
          ¬ saft then
        fieldsLoop ms splitFields saft tableName indices tableTag fs (j+1) (cols, idxs)
      else
        fieldsLoop ms splitFields saft tableName indices tableTag fs (j+1)
          (cols ++ [toSelectedField qualifiedName splitFields], idxs ++ [indices ++ [j]])

/-- The outer `for tableOrField := range iterStructFields(tableOrTables)`
loop of `Parse` (tql.go lines 407–445). A member whose kind is not a
struct switches to single-table mode: the members of `T` itself are
scanned as fields of one table with an empty table name and empty
`indices`, and the loop breaks (lines 412–414 and 441–444). -/
def topLoop (T : GoStruct) (ms : List Str) (span1 : Str) (selectAll : Bool)
    (splitFields : List Str) :
    List GoTopField → Nat → List Str × List (List Nat) → List Str × List (List Nat)
  | [], _, acc => acc
  | tf :: rest, i, acc =>
      let tableOrFieldTag := parseTQLTag tf.name tf.tag
      if tf.isStruct then
        topLoop T ms span1 selectAll splitFields rest (i+1)
          (fieldsLoop ms splitFields (saftB ms span1 selectAll tableOrFieldTag.field)
            tableOrFieldTag.field [i] tableOrFieldTag tf.fields 0 acc)
      else
        fieldsLoop ms splitFields (saftB ms span1 selectAll [])
          [] [] tableOrFieldTag (T.map leafOf) 0 acc

/-- The body of `Parse` once the `selectRegex` matches are in hand
(tql.go lines 402–448): with no match the input is returned unchanged with
an empty plan; otherwise `selectAll` and the comma-split of the first span
are computed, the field loops run against the spans, and the joined
selected columns are substituted for the first occurrence of the first
span's text. -/
def parseWithSpans (T : GoStruct) (sql : Str) : List Str → Str × List (List Nat)
  | [] => (sql, [])
  | span1 :: tail =>
      let ms := span1 :: tail
      let selectAll := decide (trimSpace span1 = ['*'])
      let splitFields := goSplit [','] span1
      let res := topLoop T ms span1 selectAll splitFields T 0 ([], [])
      (replaceFirst sql span1 (goJoin (", ".toList) res.1), res.2)

/-- `Parse` (tql.go lines 396–450). -/
def Parse (T : GoStruct) (sql : Str) : Str × List (List Nat) :=
  parseWithSpans T sql (findSelectSpans sql)

/-! ### The CTE check of `New` (tql.go lines 129–151) -/

/-- The outcomes of `New[T]` that the embedded fragment distinguishes.
Template parsing (`text/template`) is an excluded collaborator; reaching it
is modelled as `proceeds`. -/
inductive NewOutcome
  | errInvalidType
  | errUnsupportedCTE
  | proceeds
deriving DecidableEq

/-- The guard sequence of `New[T]` (tql.go lines 134–148): a non-struct type
parameter fails with `ErrInvalidType`; then a template whose
space-trimmed text has prefix `"WITH"` fails with `ErrUnsupportedCTE`;
otherwise control reaches template parsing. -/
def newOutcome (isStructT : Bool) (sqlTemplate : Str) : NewOutcome :=
  if ¬ isStructT then .errInvalidType
  else if "WITH".toList.isPrefixOf (trimSpace sqlTemplate) then .errUnsupportedCTE
  else .proceeds

/-!
### Candidate view of the field loops

`Parse` walks a sequence of (table, field) pairs fully determined by `T`;
per pair it decides inclusion from the SQL spans. `allCands` enumerates
that sequence, `includeB` is the per-pair inclusion test, and the loop
functions are proved equal to a filter over the candidates. This packages
the central "built in lockstep" invariant.
-/

/-- One (table, field) candidate of the traversal: the resolved table name,
the `indices` prefix of the scan-plan path, the enclosing table's parsed
tag, the field's index inside its table, and the field itself. -/
structure Cand where
  tableName : Str
  indices : List Nat
  tableTag : TagInfo
  j : Nat
  field : GoField
deriving DecidableEq

def Cand.fieldTag (c : Cand) : TagInfo := parseTQLTag c.field.name c.field.tag

def Cand.qualifiedName (c : Cand) : Str :=
  if c.tableName = [] then c.fieldTag.field else c.tableName ++ '.' :: c.fieldTag.field

/-- The scan-plan entry the candidate contributes when included. -/
def Cand.loc (c : Cand) : List Nat := c.indices ++ [c.j]

/-- The rewritten-column text the candidate contributes when included. -/
def Cand.column (c : Cand) (splitFields : List Str) : Str :=
  toSelectedField c.qualifiedName splitFields

/-- The candidates of one table's field list, indexed from `j`. -/
def tableCands (tableName : Str) (indices : List Nat) (tableTag : TagInfo) :
    List GoField → Nat → List Cand
  | [], _ => []
  | f :: fs, j => ⟨tableName, indices, tableTag, j, f⟩ :: tableCands tableName indices tableTag fs (j+1)

/-- The candidates of the whole traversal, mirroring `topLoop`'s control
flow including the single-table break. -/
def allCandsGo (T : GoStruct) : List GoTopField → Nat → List Cand
  | [], _ => []
  | tf :: rest, i =>
      if tf.isStruct then
        tableCands (parseTQLTag tf.name tf.tag).field [i] (parseTQLTag tf.name tf.tag) tf.fields 0
          ++ allCandsGo T rest (i+1)
      else
        tableCands [] [] (parseTQLTag tf.name tf.tag) (T.map leafOf) 0

def allCands (T : GoStruct) : List Cand := allCandsGo T T 0

/-- The omission test of tql.go line 430. -/
def omittedB (c : Cand) : Bool :=
  decide (c.fieldTag.omits = "true".toList) ||
  containsWords c.tableTag.omits [c.fieldTag.field, c.qualifiedName]

/-- The textual-reference test of tql.go line 433. -/
def referencedB (ms : List Str) (c : Cand) : Bool :=
  matchesContainsWords ms
    [c.qualifiedName, c.tableName ++ '\\' :: '.' :: c.fieldTag.field, c.fieldTag.field]

/-- The complete inclusion test of one candidate (tql.go lines 430–436). -/
def includeB (ms : List Str) (span1 : Str) (selectAll : Bool) (c : Cand) : Bool :=
  !(omittedB c) && (referencedB ms c || saftB ms span1 selectAll c.tableName)

/-- The scan plan and column list `Parse` builds for a given span list. -/
def planEntries (T : GoStruct) (ms : List Str) (span1 : Str) (selectAll : Bool) : List Cand :=
  (allCands T).filter (includeB ms span1 selectAll)

end tql

namespace tql


/-- `includeB` at a literal candidate, unfolded (definitional). -/
theorem includeB_mk (ms : List Str) (span1 : Str) (sa : Bool) (tn : Str) (idx : List Nat)
    (tt : TagInfo) (j : Nat) (f : GoField) :
    includeB ms span1 sa ⟨tn, idx, tt, j, f⟩ =
      (!(decide ((parseTQLTag f.name f.tag).omits = "true".toList) ||
          containsWords tt.omits [(parseTQLTag f.name f.tag).field,
            if tn = [] then (parseTQLTag f.name f.tag).field
            else tn ++ '.' :: (parseTQLTag f.name f.tag).field]) &&
       (matchesContainsWords ms [(if tn = [] then (parseTQLTag f.name f.tag).field
            else tn ++ '.' :: (parseTQLTag f.name f.tag).field),
          tn ++ '\\' :: '.' :: (parseTQLTag f.name f.tag).field,
          (parseTQLTag f.name f.tag).field] ||
        saftB ms span1 sa tn)) := rfl

/-- The inner field loop equals a filter of the table's candidates: columns
and scan-plan paths are two projections of one filtered candidate list. -/
theorem fieldsLoop_eq (ms : List Str) (span1 : Str) (sa : Bool) (splitFields : List Str)
    (tn : Str) (idx : List Nat) (tt : TagInfo) :
    ∀ (fs : List GoField) (j : Nat) (cols : List Str) (idxs : List (List Nat)),
      fieldsLoop ms splitFields (saftB ms span1 sa tn) tn idx tt fs j (cols, idxs) =
        (cols ++ ((tableCands tn idx tt fs j).filter (includeB ms span1 sa)).map
            (fun c => c.column splitFields),
         idxs ++ ((tableCands tn idx tt fs j).filter (includeB ms span1 sa)).map Cand.loc) := by
  intro fs
  induction fs with
  | nil => intro j cols idxs; simp [fieldsLoop, tableCands]
  | cons f fs ih =>
      intro j cols idxs
      simp only [fieldsLoop, tableCands, List.filter_cons]
      by_cases h1 : (parseTQLTag f.name f.tag).omits = "true".toList ∨
          containsWords tt.omits [(parseTQLTag f.name f.tag).field,
            if tn = [] then (parseTQLTag f.name f.tag).field
            else tn ++ '.' :: (parseTQLTag f.name f.tag).field] = true
      · rw [if_pos h1]
        have hd : (decide ((parseTQLTag f.name f.tag).omits = "true".toList) ||
            containsWords tt.omits [(parseTQLTag f.name f.tag).field,
              if tn = [] then (parseTQLTag f.name f.tag).field
              else tn ++ '.' :: (parseTQLTag f.name f.tag).field]) = true := by
          rcases h1 with h | h
          · exact (Bool.or_eq_true _ _).mpr (Or.inl (decide_eq_true h))
          · exact (Bool.or_eq_true _ _).mpr (Or.inr h)
        have hinc : includeB ms span1 sa ⟨tn, idx, tt, j, f⟩ = false := by
          rw [includeB_mk, hd]
          rfl
        rw [hinc]
        simp only [Bool.false_eq_true, if_false]
        exact ih (j+1) cols idxs
      · rw [if_neg h1]
        have hd : (decide ((parseTQLTag f.name f.tag).omits = "true".toList) ||
            containsWords tt.omits [(parseTQLTag f.name f.tag).field,
              if tn = [] then (parseTQLTag f.name f.tag).field
              else tn ++ '.' :: (parseTQLTag f.name f.tag).field]) = false := by
          rw [Bool.or_eq_false_iff]
          constructor
          · exact decide_eq_false (fun h => h1 (Or.inl h))
          · exact Bool.eq_false_iff.mpr (fun h => h1 (Or.inr h))
        by_cases h2 : ¬ matchesContainsWords ms
              [(if tn = [] then (parseTQLTag f.name f.tag).field
                else tn ++ '.' :: (parseTQLTag f.name f.tag).field),
               tn ++ '\\' :: '.' :: (parseTQLTag f.name f.tag).field,
               (parseTQLTag f.name f.tag).field] = true ∧
            ¬ saftB ms span1 sa tn = true
        · rw [if_pos h2]
          have hinc : includeB ms span1 sa ⟨tn, idx, tt, j, f⟩ = false := by
            rw [includeB_mk, Bool.eq_false_iff.mpr h2.1, Bool.eq_false_iff.mpr h2.2]
            rw [Bool.or_false, Bool.and_false]
          rw [hinc]
          simp only [Bool.false_eq_true, if_false]
          exact ih (j+1) cols idxs
        · rw [if_neg h2]
          have hinc : includeB ms span1 sa ⟨tn, idx, tt, j, f⟩ = true := by
            rw [includeB_mk, hd]
            have hb : (matchesContainsWords ms
                [(if tn = [] then (parseTQLTag f.name f.tag).field
                  else tn ++ '.' :: (parseTQLTag f.name f.tag).field),
                 tn ++ '\\' :: '.' :: (parseTQLTag f.name f.tag).field,
                 (parseTQLTag f.name f.tag).field] ||
               saftB ms span1 sa tn) = true := by
              rcases not_and_or.mp h2 with hr | hs
              · exact (Bool.or_eq_true _ _).mpr (Or.inl (not_not.mp hr))
              · exact (Bool.or_eq_true _ _).mpr (Or.inr (not_not.mp hs))
            rw [hb]
            rfl
          rw [hinc]
          simp only [if_true]
          rw [ih (j+1)]
          simp only [List.map_cons, Cand.column, Cand.loc]
          have hqn : (Cand.mk tn idx tt j f).qualifiedName =
              (if tn = [] then (parseTQLTag f.name f.tag).field
               else tn ++ '.' :: (parseTQLTag f.name f.tag).field) := rfl
          rw [hqn]
          simp only [List.append_assoc, List.cons_append, List.nil_append]

/-- The outer loop equals a filter of the full candidate list. -/
theorem topLoop_eq (T : GoStruct) (ms : List Str) (span1 : Str) (sa : Bool)
    (splitFields : List Str) :
    ∀ (rest : List GoTopField) (i : Nat) (cols : List Str) (idxs : List (List Nat)),
      topLoop T ms span1 sa splitFields rest i (cols, idxs) =
        (cols ++ ((allCandsGo T rest i).filter (includeB ms span1 sa)).map
            (fun c => c.column splitFields),
         idxs ++ ((allCandsGo T rest i).filter (includeB ms span1 sa)).map Cand.loc) := by
  intro rest
  induction rest with
  | nil => intro i cols idxs; simp [topLoop, allCandsGo]
  | cons tf rest ih =>
      intro i cols idxs
      simp only [topLoop, allCandsGo]
      by_cases hs : tf.isStruct = true
      · rw [if_pos hs, if_pos hs]
        rw [fieldsLoop_eq ms span1 sa splitFields (parseTQLTag tf.name tf.tag).field [i]
          (parseTQLTag tf.name tf.tag) tf.fields 0 cols idxs]
        rw [ih (i+1)]
        simp [List.filter_append, List.append_assoc]
      · rw [if_neg hs, if_neg hs]
        exact fieldsLoop_eq ms span1 sa splitFields [] [] (parseTQLTag tf.name tf.tag)
          (T.map leafOf) 0 cols idxs

/-- `Parse` on a SQL text whose span list is `span1 :: tail`: the rewritten
text substitutes the joined columns of the included candidates, and the
scan plan is their location list. -/
theorem parse_spans_eq (T : GoStruct) (sql span1 : Str) (tail : List Str)
    (h : findSelectSpans sql = span1 :: tail) :
    Parse T sql =
      (replaceFirst sql span1 (goJoin (", ".toList)
        ((planEntries T (span1 :: tail) span1 (decide (trimSpace span1 = ['*']))).map
          (fun c => c.column (goSplit [','] span1)))),
       (planEntries T (span1 :: tail) span1 (decide (trimSpace span1 = ['*']))).map Cand.loc) := by
  unfold Parse
  rw [h]
  show parseWithSpans T sql (span1 :: tail) = _
  simp only [parseWithSpans]
  rw [topLoop_eq T (span1 :: tail) span1 (decide (trimSpace span1 = ['*']))
    (goSplit [','] span1) T 0 [] []]
  simp [planEntries, allCands]

/-- Look up the struct field a scan-plan index path addresses, following
`reflect.Value.FieldByIndex` as `QueryContext` uses it: `[j]` is the j-th
direct member of `T`, `[i, j]` the j-th field of the i-th member. -/
def fieldAt (T : GoStruct) : List Nat → Option GoField
  | [j] => (T[j]?).map leafOf
  | [i, j] =>
      match T[i]? with
      | some tf => tf.fields[j]?
      | none => none
  | _ => none

/-- Membership in one table's candidate list determines every component. -/
theorem tableCands_mem {tn : Str} {idx : List Nat} {tt : TagInfo} :
    ∀ {fs : List GoField} {j0 : Nat} {c : Cand}, c ∈ tableCands tn idx tt fs j0 →
      c.tableName = tn ∧ c.indices = idx ∧ c.tableTag = tt ∧
        ∃ k, c.j = j0 + k ∧ fs[k]? = some c.field := by
  intro fs
  induction fs with
  | nil => intro j0 c hc; simp [tableCands] at hc
  | cons f fs ih =>
      intro j0 c hc
      simp only [tableCands, List.mem_cons] at hc
      rcases hc with rfl | hc
      · exact ⟨rfl, rfl, rfl, 0, by simp, by simp⟩
      · obtain ⟨h1, h2, h3, k, hk, hf⟩ := ih hc
        exact ⟨h1, h2, h3, k + 1, by omega, by simpa using hf⟩

/-- Conversely, every indexed field of the list yields a candidate. -/
theorem tableCands_mem_of {tn : Str} {idx : List Nat} {tt : TagInfo} :
    ∀ {fs : List GoField} {j0 k : Nat} {f : GoField}, fs[k]? = some f →
      (⟨tn, idx, tt, j0 + k, f⟩ : Cand) ∈ tableCands tn idx tt fs j0 := by
  intro fs
  induction fs with
  | nil => intro j0 k f hf; simp at hf
  | cons g fs ih =>
      intro j0 k f hf
      cases k with
      | zero =>
          simp only [List.getElem?_cons_zero, Option.some.injEq] at hf
          subst hf
          simp [tableCands]
      | succ k =>
          simp only [List.getElem?_cons_succ] at hf
          have := @ih (j0 + 1) k f hf
          simp only [tableCands, List.mem_cons]
          right
          have harith : j0 + 1 + k = j0 + (k + 1) := by omega
          rw [harith] at this
          exact this

/-- Every candidate's location addresses exactly its own field. -/
theorem allCands_coherent (T : GoStruct) :
    ∀ (rest : List GoTopField) (i : Nat), rest = T.drop i →
      ∀ c ∈ allCandsGo T rest i, fieldAt T c.loc = some c.field := by
  intro rest
  induction rest with
  | nil => intro i _ c hc; simp [allCandsGo] at hc
  | cons tf rest ih =>
      intro i hdrop c hc
      have hti : T[i]? = some tf := by
        have h0 : (T.drop i)[0]? = some tf := by rw [← hdrop]; simp
        rw [List.getElem?_drop] at h0
        simpa using h0
      simp only [allCandsGo] at hc
      by_cases hs : tf.isStruct = true
      · rw [if_pos hs] at hc
        rcases List.mem_append.mp hc with hmem | hmem
        · obtain ⟨_, hidx, _, k, hk, hf⟩ := tableCands_mem hmem
          have hloc : c.loc = [i, c.j] := by rw [Cand.loc, hidx]; rfl
          rw [hloc]
          show (match T[i]? with
            | some tf => tf.fields[c.j]?
            | none => none) = some c.field
          rw [hti]
          simpa [hk] using hf
        · have hrest : rest = T.drop (i+1) := by
            have := congrArg List.tail hdrop
            simpa [List.tail_drop] using this
          exact ih (i+1) hrest c hmem
      · rw [if_neg hs] at hc
        obtain ⟨_, hidx, _, k, hk, hf⟩ := tableCands_mem hc
        have hloc : c.loc = [c.j] := by rw [Cand.loc, hidx]; rfl
        rw [hloc]
        show (T[c.j]?).map leafOf = some c.field
        rw [hk]
        simp only [Nat.zero_add]
        rw [List.getElem?_map] at hf
        simpa using hf

/-- C1: whenever a `SELECT ... FROM` span is found, the scan plan and the
rewritten column list are the two projections of one included-candidate
list built in lockstep: the plan has exactly one entry per rewritten
column, the i-th plan entry and the i-th column text come from the same
candidate, and every plan entry addresses exactly that candidate's struct
field. -/
theorem parse_scanplan_lockstep (T : GoStruct) (sql span1 : Str) (tail : List Str)
    (h : findSelectSpans sql = span1 :: tail) :
    ∃ E : List Cand,
      (Parse T sql).2 = E.map Cand.loc ∧
      (Parse T sql).1 = replaceFirst sql span1
        (goJoin (", ".toList) (E.map (fun c => c.column (goSplit [','] span1)))) ∧
      (Parse T sql).2.length = (E.map (fun c => c.column (goSplit [','] span1))).length ∧
      ∀ c ∈ E, fieldAt T c.loc = some c.field := by
  refine ⟨planEntries T (span1 :: tail) span1 (decide (trimSpace span1 = ['*'])), ?_, ?_, ?_, ?_⟩
  · rw [parse_spans_eq T sql span1 tail h]
  · rw [parse_spans_eq T sql span1 tail h]
  · rw [parse_spans_eq T sql span1 tail h]; simp
  · intro c hc
    exact allCands_coherent T T 0 (by simp) c (List.mem_filter.mp hc).1

/-- The record type of the C6 scenario: one embedded table struct `User`
with members `Id` and `Name`, no tql tags. -/
def userT : GoStruct := [⟨"User".toList, [], true, [⟨"Id".toList, []⟩, ⟨"Name".toList, []⟩]⟩]

/-- The SQL text of the C6 scenario. -/
def sqlLower : Str := "SELECT User.id, User.name FROM User WHERE User.id = ?".toList

/-- The C6 SQL with the column references matching the member names' case. -/
def sqlUpper : Str := "SELECT User.Id, User.Name FROM User WHERE User.Id = ?".toList

/-- Witness for C1 at the concrete record/SQL of the (amended) C6
scenario. -/
theorem parse_scanplan_lockstep_witness :
    findSelectSpans sqlUpper = ("User.Id, User.Name".toList) :: [] ∧
    (∃ E : List Cand,
      (Parse userT sqlUpper).2 = E.map Cand.loc ∧
      (Parse userT sqlUpper).1 = replaceFirst sqlUpper ("User.Id, User.Name".toList)
        (goJoin (", ".toList)
          (E.map (fun c => c.column (goSplit [','] ("User.Id, User.Name".toList))))) ∧
      (Parse userT sqlUpper).2.length =
        (E.map (fun c => c.column (goSplit [','] ("User.Id, User.Name".toList)))).length ∧
      ∀ c ∈ E, fieldAt userT c.loc = some c.field) :=
  ⟨by decide, parse_scanplan_lockstep userT sqlUpper ("User.Id, User.Name".toList) [] (by decide)⟩

/-- C6 counterexample: on the claim's record (members `Id`, `Name`) and the
claim's SQL (columns `User.id`, `User.name`), `Parse` does not return the
SQL unchanged with plan `[[0,0],[0,1]]` — the word matching of
`containsWords` is case-sensitive, so neither member matches and the
column list is rewritten to empty with an empty plan. -/
theorem parse_scenario_lowercase_cex :
    Parse userT sqlLower = ("SELECT  FROM User WHERE User.id = ?".toList, []) ∧
    ¬ (Parse userT sqlLower = (sqlLower, [[0, 0], [0, 1]])) := by
  constructor
  · decide
  · decide

/-- C6 amended: with the SQL referencing the columns in the members' exact
case, `Parse` returns the text unchanged (already fully qualified) and the
scan plan `[User.Id, User.Name]`, i.e. `[[0,0],[0,1]]`, in that order. -/
theorem parse_scenario_qualified :
    Parse userT sqlUpper = (sqlUpper, [[0, 0], [0, 1]]) := by decide

/-- C10: when no `SELECT ... FROM` pattern is found, `Parse` returns the
input byte-for-byte unchanged together with an empty scan plan (and, being
a total function, neither fails nor panics). -/
theorem parse_no_select_unchanged (T : GoStruct) (sql : Str)
    (h : findSelectSpans sql = []) : Parse T sql = (sql, []) := by
  unfold Parse
  rw [h]
  rfl

/-- Witness for C10 at an INSERT statement. -/
theorem parse_no_select_unchanged_witness :
    findSelectSpans ("INSERT INTO User (name, id) VALUES (?, ?)".toList) = [] ∧
    Parse userT ("INSERT INTO User (name, id) VALUES (?, ?)".toList) =
      ("INSERT INTO User (name, id) VALUES (?, ?)".toList, []) :=
  ⟨by decide, parse_no_select_unchanged userT _ (by decide)⟩

/-! ### C9: leading CTEs are rejected by `New` -/

/-- A SQL template that, after trimming leading whitespace, begins with a
CTE prefix `WITH name AS (...)`. -/
def IsCTEPrefixed (s : Str) : Prop :=
  ∃ nm body rest, nm ≠ [] ∧
    s.dropWhile isGoSpace =
      "WITH ".toList ++ nm ++ " AS (".toList ++ body ++ ')' :: rest

/-- `dropWhile` over an append whose left part contains a failing element
stays within the left part. -/
theorem dropWhile_append_left {p : Char → Bool} :
    ∀ (a b : Str), (∃ c ∈ a, p c = false) →
      (a ++ b).dropWhile p = a.dropWhile p ++ b := by
  intro a
  induction a with
  | nil => intro b h; simp at h
  | cons x a ih =>
      intro b h
      by_cases hx : p x = true
      · simp only [List.cons_append, List.dropWhile_cons_of_pos hx]
        apply ih
        rcases h with ⟨c, hc, hpc⟩
        rcases List.mem_cons.mp hc with rfl | hc
        · rw [hx] at hpc; cases hpc
        · exact ⟨c, hc, hpc⟩
      · have hx' : p x = false := Bool.eq_false_iff.mpr hx
        simp only [List.cons_append, List.dropWhile_cons, hx']
        simp

/-- C9: for a struct type parameter, a template whose leading-whitespace
trim begins with a CTE prefix makes `New` fail fast with
`ErrUnsupportedCTE`, before template parsing is ever reached. -/
theorem new_rejects_cte (s : Str) (h : IsCTEPrefixed s) :
    newOutcome true s = .errUnsupportedCTE := by
  obtain ⟨nm, body, rest, _, hdec⟩ := h
  have hpre : "WITH".toList.isPrefixOf (trimSpace s) = true := by
    rw [List.isPrefixOf_iff_prefix]
    unfold trimSpace
    rw [hdec]
    have hsplit : "WITH ".toList ++ nm ++ " AS (".toList ++ body ++ ')' :: rest =
        "WITH".toList ++ (' ' :: nm ++ " AS (".toList ++ body ++ ')' :: rest) := by
      simp
    rw [hsplit, List.reverse_append]
    rw [dropWhile_append_left _ _ ?nonspace]
    case nonspace =>
      refine ⟨')', ?_, by decide⟩
      simp only [List.mem_reverse]
      simp
    rw [List.reverse_append, List.reverse_reverse]
    exact ⟨_, rfl⟩
  unfold newOutcome
  simp only [not_true, if_neg, if_false]
  rw [hpre]
  simp

/-- Witness for C9 at a concrete CTE-prefixed template. -/
theorem new_rejects_cte_witness :
    IsCTEPrefixed ("WITH x AS (SELECT 1) SELECT * FROM t".toList) ∧
    newOutcome true ("WITH x AS (SELECT 1) SELECT * FROM t".toList) = .errUnsupportedCTE := by
  have hc : IsCTEPrefixed ("WITH x AS (SELECT 1) SELECT * FROM t".toList) :=
    ⟨"x".toList, "SELECT 1".toList, " SELECT * FROM t".toList, by decide, by decide⟩
  exact ⟨hc, new_rejects_cte _ hc⟩

/-! ### Occurrence semantics of the word matcher (for C7 and C8) -/

/-- `reScan` finds exactly the decompositions where a non-dot character is
followed by a word boundary and the tokens. -/
theorem reScan_iff (tks : List Tok) :
    ∀ s : Str, reScan tks s = true ↔
      ∃ pre x post, s = pre ++ x :: post ∧ x ≠ '.' ∧ wbOk (some x) post = true ∧
        matchToks tks (some x) post = true := by
  intro s
  induction s with
  | nil =>
      simp only [reScan]
      constructor
      · intro h; cases h
      · rintro ⟨pre, x, post, h, -⟩
        exact absurd h (by simp)
  | cons y ys ih =>
      simp only [reScan, Bool.or_eq_true, Bool.and_eq_true, decide_eq_true_eq]
      constructor
      · rintro (⟨⟨hy, hwb⟩, hm⟩ | h)
        · exact ⟨[], y, ys, rfl, hy, hwb, hm⟩
        · obtain ⟨pre, x, post, heq, hx, hwb, hm⟩ := ih.mp h
          exact ⟨y :: pre, x, post, by rw [heq]; rfl, hx, hwb, hm⟩
      · rintro ⟨pre, x, post, heq, hx, hwb, hm⟩
        cases pre with
        | nil =>
            simp only [List.nil_append, List.cons.injEq] at heq
            obtain ⟨rfl, rfl⟩ := heq
            exact Or.inl ⟨⟨hx, hwb⟩, hm⟩
        | cons z pre =>
            simp only [List.cons_append, List.cons.injEq] at heq
            obtain ⟨rfl, heq⟩ := heq
            exact Or.inr (ih.mpr ⟨pre, x, post, heq, hx, hwb, hm⟩)

/-- A word occurs in `source` (in the sense of the compiled pattern
`(^|[^.])\b<word>`): its tokens compile, and they match either at the very
start or right after some character that is not a dot, at a word
boundary. -/
def WordOccursP (source w : Str) : Prop :=
  ∃ tks, toToks w = some tks ∧
    ((wbOk none source = true ∧ matchToks tks none source = true) ∨
     ∃ pre x post, source = pre ++ x :: post ∧ x ≠ '.' ∧ wbOk (some x) post = true ∧
       matchToks tks (some x) post = true)

/-- `reMatch` decides exactly the occurrence property. -/
theorem reMatch_iff_occurs {w : Str} {tks : List Tok} (htk : toToks w = some tks)
    (s : Str) : reMatch tks s = true ↔ WordOccursP s w := by
  unfold reMatch WordOccursP
  rw [Bool.or_eq_true, Bool.and_eq_true, reScan_iff]
  constructor
  · intro h
    exact ⟨tks, htk, h⟩
  · rintro ⟨tks', htk', h⟩
    rw [htk] at htk'
    cases htk'
    exact h

/-- `containsWords` on a cons whose head compiles. -/
theorem containsWords_cons {s w : Str} {tks : List Tok} (htk : toToks w = some tks)
    (rest : List Str) :
    containsWords s (w :: rest) = true ↔
      (reMatch tks s = true ∨ containsWords s rest = true) := by
  simp only [containsWords, htk]
  by_cases hm : reMatch tks s = true
  · simp [hm]
  · simp [hm]

/-- Names that the tag parser can produce: nonempty, made of word
characters with at most a trailing `=`; such names compile to literal
tokens and start with a word character. -/
def wfNameP (s : Str) : Prop :=
  s ≠ [] ∧ (∀ c ∈ s, isWordChar c = true ∨ c = '=') ∧
    isWordChar (s.headD ' ') = true

instance (s : Str) : Decidable (wfNameP s) := by
  unfold wfNameP
  infer_instance

/-- Step equation of `toToks` for an unescaped character. -/
theorem toToks_cons_step (c : Char) (rest : Str) (hcb : ¬ c = '\\') :
    toToks (c :: rest) =
      (if c = '.' then (toToks rest).map (Tok.anyc :: ·)
       else if (isWordChar c || c = '=') = true then (toToks rest).map (Tok.lit c :: ·)
       else none) := by
  cases rest with
  | nil => rw [toToks.eq_2, if_neg hcb]
  | cons d rest2 => rw [toToks.eq_3, if_neg hcb]

/-- Step equation of `toToks` for the escape `\.`. -/
theorem toToks_bs_dot (rest : Str) :
    toToks ('\\' :: '.' :: rest) = (toToks rest).map (Tok.lit '.' :: ·) := by
  rw [toToks.eq_3, if_pos rfl, if_pos rfl]

/-- Word-character strings compile to their literal tokens. -/
theorem toToks_lits : ∀ (s : Str), (∀ c ∈ s, isWordChar c = true ∨ c = '=') →
    toToks s = some (s.map Tok.lit)
  | [], _ => rfl
  | c :: rest, h => by
      have hc := h c (by simp)
      have hcb : ¬ c = '\\' := by
        rcases hc with hc | hc
        · intro he; rw [he] at hc; cases hc
        · intro he; rw [he] at hc; cases hc
      have hcd : ¬ c = '.' := by
        rcases hc with hc | hc
        · intro he; rw [he] at hc; cases hc
        · intro he; rw [he] at hc; cases hc
      have hcw : (isWordChar c || c = '=') = true := by
        rcases hc with hc | hc
        · simp [hc]
        · simp [hc]
      rw [toToks_cons_step c rest hcb, if_neg hcd, if_pos hcw,
        toToks_lits rest (fun x hx => h x (by simp [hx]))]
      rfl

/-- A qualified name `t ++ "." ++ f` compiles with the dot as the
any-character token. -/
theorem toToks_qual : ∀ (t f : Str), (∀ c ∈ t, isWordChar c = true ∨ c = '=') →
    (∀ c ∈ f, isWordChar c = true ∨ c = '=') →
    toToks (t ++ '.' :: f) = some (t.map Tok.lit ++ Tok.anyc :: f.map Tok.lit)
  | [], f, _, hf => by
      show toToks ('.' :: f) = _
      rw [toToks_cons_step '.' f (by decide), if_pos rfl, toToks_lits f hf]
      rfl
  | c :: t, f, ht, hf => by
      have hc := ht c (by simp)
      have hcb : ¬ c = '\\' := by
        rcases hc with hc | hc
        · intro he; rw [he] at hc; cases hc
        · intro he; rw [he] at hc; cases hc
      have hcd : ¬ c = '.' := by
        rcases hc with hc | hc
        · intro he; rw [he] at hc; cases hc
        · intro he; rw [he] at hc; cases hc
      have hcw : (isWordChar c || c = '=') = true := by
        rcases hc with hc | hc
        · simp [hc]
        · simp [hc]
      show toToks (c :: (t ++ '.' :: f)) = _
      rw [toToks_cons_step c _ hcb, if_neg hcd, if_pos hcw,
        toToks_qual t f (fun x hx => ht x (by simp [hx])) hf]
      rfl

/-- An escaped qualified name `t ++ "\." ++ f` compiles with a literal
dot token. -/
theorem toToks_escqual : ∀ (t f : Str), (∀ c ∈ t, isWordChar c = true ∨ c = '=') →
    (∀ c ∈ f, isWordChar c = true ∨ c = '=') →
    toToks (t ++ '\\' :: '.' :: f) = some (t.map Tok.lit ++ Tok.lit '.' :: f.map Tok.lit)
  | [], f, _, hf => by
      show toToks ('\\' :: '.' :: f) = _
      rw [toToks_bs_dot f, toToks_lits f hf]
      rfl
  | c :: t, f, ht, hf => by
      have hc := ht c (by simp)
      have hcb : ¬ c = '\\' := by
        rcases hc with hc | hc
        · intro he; rw [he] at hc; cases hc
        · intro he; rw [he] at hc; cases hc
      have hcd : ¬ c = '.' := by
        rcases hc with hc | hc
        · intro he; rw [he] at hc; cases hc
        · intro he; rw [he] at hc; cases hc
      have hcw : (isWordChar c || c = '=') = true := by
        rcases hc with hc | hc
        · simp [hc]
        · simp [hc]
      show toToks (c :: (t ++ '\\' :: '.' :: f)) = _
      rw [toToks_cons_step c _ hcb, if_neg hcd, if_pos hcw,
        toToks_escqual t f (fun x hx => ht x (by simp [hx])) hf]
      rfl

/-- In an all-struct record, every indexed table field yields a candidate. -/
theorem allCands_mem_of_table (T : GoStruct) (hAll : ∀ tf ∈ T, tf.isStruct = true) :
    ∀ (rest : List GoTopField) (i0 : Nat), rest = T.drop i0 →
      ∀ (i : Nat) (tf : GoTopField) (j : Nat) (f : GoField),
        i0 ≤ i → T[i]? = some tf → tf.fields[j]? = some f →
        (⟨(parseTQLTag tf.name tf.tag).field, [i], parseTQLTag tf.name tf.tag, j, f⟩ : Cand)
          ∈ allCandsGo T rest i0 := by
  intro rest
  induction rest with
  | nil =>
      intro i0 hdrop i tf j f hle hti _
      exfalso
      have hlen : T.length ≤ i0 := by
        have := congrArg List.length hdrop
        simp only [List.length_nil, List.length_drop] at this
        omega
      have : T[i]? = none := List.getElem?_eq_none (by omega)
      rw [this] at hti
      cases hti
  | cons tf0 rest ih =>
      intro i0 hdrop i tf j f hle hti hfj
      have hti0 : T[i0]? = some tf0 := by
        have h0 : (T.drop i0)[0]? = some tf0 := by rw [← hdrop]; simp
        rw [List.getElem?_drop] at h0
        simpa using h0
      have htf0mem : tf0 ∈ T := by
        have : tf0 ∈ T.drop i0 := by rw [← hdrop]; simp
        exact List.mem_of_mem_drop this
      have hs0 : tf0.isStruct = true := hAll tf0 htf0mem
      simp only [allCandsGo, if_pos hs0, List.mem_append]
      rcases Nat.eq_or_lt_of_le hle with rfl | hlt
      · left
        rw [hti0] at hti
        cases hti
        have := @tableCands_mem_of ((parseTQLTag tf0.name tf0.tag).field)
          [i0] (parseTQLTag tf0.name tf0.tag) tf0.fields 0 j f hfj
        simpa using this
      · right
        have hrest : rest = T.drop (i0+1) := by
          have := congrArg List.tail hdrop
          simpa [List.tail_drop] using this
        exact ih (i0+1) hrest i tf j f hlt hti hfj

/-- In an all-struct record, every candidate comes from an indexed table
field, and its components are determined by that table and field. -/
theorem allCands_mem_char (T : GoStruct) (hAll : ∀ tf ∈ T, tf.isStruct = true) :
    ∀ (rest : List GoTopField) (i0 : Nat), rest = T.drop i0 →
      ∀ c ∈ allCandsGo T rest i0,
        ∃ i tf, i0 ≤ i ∧ T[i]? = some tf ∧
          c.tableName = (parseTQLTag tf.name tf.tag).field ∧
          c.indices = [i] ∧ c.tableTag = parseTQLTag tf.name tf.tag ∧
          tf.fields[c.j]? = some c.field := by
  intro rest
  induction rest with
  | nil => intro i0 _ c hc; simp [allCandsGo] at hc
  | cons tf0 rest ih =>
      intro i0 hdrop c hc
      have hti0 : T[i0]? = some tf0 := by
        have h0 : (T.drop i0)[0]? = some tf0 := by rw [← hdrop]; simp
        rw [List.getElem?_drop] at h0
        simpa using h0
      have htf0mem : tf0 ∈ T := by
        have : tf0 ∈ T.drop i0 := by rw [← hdrop]; simp
        exact List.mem_of_mem_drop this
      have hs0 : tf0.isStruct = true := hAll tf0 htf0mem
      simp only [allCandsGo, if_pos hs0, List.mem_append] at hc
      rcases hc with hmem | hmem
      · obtain ⟨h1, h2, h3, k, hk, hf⟩ := tableCands_mem hmem
        refine ⟨i0, tf0, Nat.le_refl _, hti0, h1, h2, h3, ?_⟩
        rw [hk]
        simpa using hf
      · have hrest : rest = T.drop (i0+1) := by
          have := congrArg List.tail hdrop
          simpa [List.tail_drop] using this
        obtain ⟨i, tf, hle, hti, hrest'⟩ := ih (i0+1) hrest c hmem
        exact ⟨i, tf, by omega, hti, hrest'⟩

/-- C7 counterexample record: one table `User` with one member `Name`. -/
def userNameT : GoStruct := [⟨"User".toList, [], true, [⟨"Name".toList, []⟩]⟩]

/-- C7 counterexample SQL: the first span is `zzz`, and `User.Name` is
referenced only inside a parenthesized subquery (the second span). -/
def sqlSub : Str := "SELECT zzz FROM (SELECT User.Name FROM User) AS x".toList

/-- C7 counterexample: the claim says a field (no wildcards applying) is
included iff the original SELECT span references it. On `sqlSub` the
original span is `zzz`, which references nothing, yet `Parse` includes
`User.Name` (position `[0,0]`) because the matching consults every span,
including the subquery's. -/
theorem parse_inclusion_original_span_cex :
    (Parse userNameT sqlSub).2 = [[0, 0]] ∧
    containsWords ("zzz".toList)
      ["User.Name".toList, "User\\.Name".toList, "Name".toList] = false ∧
    saftB (findSelectSpans sqlSub) ("zzz".toList) false ("User".toList) = false := by
  refine ⟨by decide, by decide, by decide⟩

/-- C7 amended: for a multi-table record, a non-omitted field of a table to
which no wildcard applies is included in the scan plan iff SOME
`SELECT ... FROM` span of the SQL (not only the first) contains an
occurrence — at a word boundary not preceded by a dot — of its qualified
name (with the dot acting as a regex any-character), of its
`table\.field` form, or of its bare field name. -/
theorem parse_inclusion_iff
    (T : GoStruct) (sql span1 : Str) (tail : List Str)
    (hspans : findSelectSpans sql = span1 :: tail)
    (hAll : ∀ tf ∈ T, tf.isStruct = true)
    (i j : Nat) (tf : GoTopField) (f : GoField)
    (hti : T[i]? = some tf) (hfj : tf.fields[j]? = some f)
    (homit : omittedB ⟨(parseTQLTag tf.name tf.tag).field, [i],
        parseTQLTag tf.name tf.tag, j, f⟩ = false)
    (hsaft : saftB (span1 :: tail) span1 (decide (trimSpace span1 = ['*']))
        (parseTQLTag tf.name tf.tag).field = false)
    (hwt : ∀ c ∈ (parseTQLTag tf.name tf.tag).field, isWordChar c = true ∨ c = '=')
    (hwff : ∀ c ∈ (parseTQLTag f.name f.tag).field, isWordChar c = true ∨ c = '=')
    (htnne : ¬ (parseTQLTag tf.name tf.tag).field = []) :
    ([i, j] ∈ (Parse T sql).2 ↔
      ∃ sp ∈ span1 :: tail,
        (WordOccursP sp
            ((parseTQLTag tf.name tf.tag).field ++ '.' :: (parseTQLTag f.name f.tag).field) ∨
         WordOccursP sp
            ((parseTQLTag tf.name tf.tag).field ++ '\\' :: '.' :: (parseTQLTag f.name f.tag).field) ∨
         WordOccursP sp (parseTQLTag f.name f.tag).field)) := by
  have htks1 := toToks_qual (parseTQLTag tf.name tf.tag).field
    (parseTQLTag f.name f.tag).field hwt hwff
  have htks2 := toToks_escqual (parseTQLTag tf.name tf.tag).field
    (parseTQLTag f.name f.tag).field hwt hwff
  have htks3 := toToks_lits (parseTQLTag f.name f.tag).field hwff
  set tn := (parseTQLTag tf.name tf.tag).field with htn
  set fn := (parseTQLTag f.name f.tag).field with hfn
  set c0 : Cand := ⟨tn, [i], parseTQLTag tf.name tf.tag, j, f⟩ with hc0
  have hqn : c0.qualifiedName = tn ++ '.' :: fn := by
    show (if c0.tableName = [] then c0.fieldTag.field
      else c0.tableName ++ '.' :: c0.fieldTag.field) = _
    rw [if_neg htnne]
    rfl
  have hcw3 : ∀ sp : Str, containsWords sp [c0.qualifiedName,
      c0.tableName ++ '\\' :: '.' :: c0.fieldTag.field, c0.fieldTag.field] = true ↔
      (WordOccursP sp (tn ++ '.' :: fn) ∨
       WordOccursP sp (tn ++ '\\' :: '.' :: fn) ∨ WordOccursP sp fn) := by
    intro sp
    rw [hqn]
    show containsWords sp [tn ++ '.' :: fn, tn ++ '\\' :: '.' :: fn, fn] = true ↔ _
    rw [containsWords_cons htks1, containsWords_cons htks2, containsWords_cons htks3]
    simp only [containsWords, Bool.false_eq_true, or_false]
    rw [reMatch_iff_occurs htks1, reMatch_iff_occurs htks2, reMatch_iff_occurs htks3]
  have hrefiff : referencedB (span1 :: tail) c0 = true ↔
      ∃ sp ∈ span1 :: tail,
        (WordOccursP sp (tn ++ '.' :: fn) ∨
         WordOccursP sp (tn ++ '\\' :: '.' :: fn) ∨ WordOccursP sp fn) := by
    unfold referencedB matchesContainsWords
    rw [List.any_eq_true]
    constructor
    · rintro ⟨sp, hsp, hcw⟩
      exact ⟨sp, hsp, (hcw3 sp).mp hcw⟩
    · rintro ⟨sp, hsp, hocc⟩
      exact ⟨sp, hsp, (hcw3 sp).mpr hocc⟩
  rw [parse_spans_eq T sql span1 tail hspans]
  simp only [List.mem_map]
  constructor
  · rintro ⟨c, hcmem, hcloc⟩
    have hcall := (List.mem_filter.mp hcmem).1
    have hcinc := (List.mem_filter.mp hcmem).2
    obtain ⟨i', tf', _, hti', hcn, hcidx, hctt, hcf⟩ :=
      allCands_mem_char T hAll T 0 (by simp) c hcall
    have hloc2 : c.indices ++ [c.j] = [i, j] := hcloc
    rw [hcidx] at hloc2
    obtain ⟨rfl, rfl⟩ : i' = i ∧ c.j = j := by simpa using hloc2
    rw [hti] at hti'
    cases hti'
    rw [hfj] at hcf
    cases hcf
    have hceq : c = c0 := by
      rw [hc0]
      cases c
      simp only [Cand.mk.injEq]
      exact ⟨hcn, hcidx, hctt, trivial, trivial⟩
    rw [hceq] at hcinc
    have hinc := hcinc
    unfold includeB at hinc
    rw [homit] at hinc
    have hc0tn : c0.tableName = tn := rfl
    rw [hc0tn, hsaft] at hinc
    simp only [Bool.not_false, Bool.true_and, Bool.or_false] at hinc
    exact hrefiff.mp hinc
  · intro hocc
    refine ⟨c0, List.mem_filter.mpr ⟨?_, ?_⟩, ?_⟩
    · exact allCands_mem_of_table T hAll T 0 (by simp) i tf j f (Nat.zero_le _) hti hfj
    · unfold includeB
      rw [homit]
      have hc0tn : c0.tableName = tn := rfl
      rw [hc0tn, hsaft]
      simp only [Bool.not_false, Bool.true_and, Bool.or_false]
      exact hrefiff.mpr hocc
    · show c0.indices ++ [c0.j] = [i, j]
      rfl

/-- Witness for C7 at the record `userNameT` and the subquery SQL. -/
theorem parse_inclusion_iff_witness :
    [0, 0] ∈ (Parse userNameT sqlSub).2 ↔
      ∃ sp ∈ ("zzz".toList :: ["User.Name".toList]),
        (WordOccursP sp
            ((parseTQLTag "User".toList []).field ++ '.' ::
              (parseTQLTag "Name".toList []).field) ∨
         WordOccursP sp
            ((parseTQLTag "User".toList []).field ++ '\\' :: '.' ::
              (parseTQLTag "Name".toList []).field) ∨
         WordOccursP sp (parseTQLTag "Name".toList []).field) :=
  parse_inclusion_iff userNameT sqlSub ("zzz".toList) ["User.Name".toList]
    (by decide) (by decide) 0 0
    ⟨"User".toList, [], true, [⟨"Name".toList, []⟩]⟩ ⟨"Name".toList, []⟩
    (by decide) (by decide) (by decide) (by decide) (by decide) (by decide) (by decide)

/-! ### Replaying `Parse` on its own output (C8) -/

/-- The previous-character state after consuming `w` starting from `pv`. -/
def lastPrev : Str → Option Char → Option Char
  | [], pv => pv
  | c :: rest, _ => lastPrev rest (some c)

/-- Literal tokens consume exactly their own text. -/
theorem matchToks_lits_append : ∀ (w : Str) (pv : Option Char) (r : Str) (ts : List Tok),
    matchToks (w.map Tok.lit ++ ts) pv (w ++ r) = matchToks ts (lastPrev w pv) r
  | [], _, _, _ => rfl
  | c :: w, pv, r, ts => by
      show (decide (c = c) && matchToks (w.map Tok.lit ++ ts) (some c) (w ++ r)) = _
      rw [matchToks_lits_append w (some c) r ts]
      simp [lastPrev]

/-- `toSelectedField` returns its qualified name, possibly with a prefix
ending in the space of `" as "`. -/
theorem toSelectedField_shape (q : Str) : ∀ sf : List Str,
    ∃ b, toSelectedField q sf = b ++ q ∧ (b = [] ∨ ∃ b', b = b' ++ [' ']) := by
  intro sf
  induction sf with
  | nil => exact ⟨[], by simp [toSelectedField], Or.inl rfl⟩
  | cons f rest ih =>
      simp only [toSelectedField]
      by_cases hlen : 1 < (goSplit (" as ".toList) f).length
      · rw [if_pos hlen]
        by_cases htr : trimSpace ((goSplit (" as ".toList) f).getD 1 []) = q
        · rw [if_pos htr]
          refine ⟨(goSplit (" as ".toList) f).getD 0 [] ++ " as ".toList, by simp, Or.inr ?_⟩
          refine ⟨(goSplit (" as ".toList) f).getD 0 [] ++ [' ', 'a', 's'], ?_⟩
          rw [List.append_assoc]
          rfl
        · rw [if_neg htr]; exact ih
      · rw [if_neg hlen]; exact ih

/-- Every element of a joined list occurs in the join, preceded by nothing
or by a prefix ending in the separator. -/
theorem goJoin_mem_decomp (sep : Str) :
    ∀ (xs : List Str) (x : Str), x ∈ xs →
      ∃ pre post, goJoin sep xs = pre ++ (x ++ post) ∧
        (pre = [] ∨ ∃ p', pre = p' ++ sep) := by
  intro xs
  induction xs with
  | nil => intro x hx; simp at hx
  | cons y ys ih =>
      intro x hx
      cases ys with
      | nil =>
          simp only [List.mem_singleton] at hx
          subst hx
          exact ⟨[], [], by simp [goJoin], Or.inl rfl⟩
      | cons z zs =>
          rcases List.mem_cons.mp hx with rfl | hx'
          · refine ⟨[], sep ++ goJoin sep (z :: zs), ?_, Or.inl rfl⟩
            simp [goJoin, List.append_assoc]
          · obtain ⟨pre, post, heq, hp⟩ := ih x hx'
            refine ⟨y ++ sep ++ pre, post, ?_, ?_⟩
            · simp only [goJoin, heq, List.append_assoc]
            · rcases hp with rfl | ⟨p', rfl⟩
              · exact Or.inr ⟨y, by simp⟩
              · exact Or.inr ⟨y ++ sep ++ p', by simp [List.append_assoc]⟩

/-- Filtering with a pointwise-weaker predicate produces a sublist. -/
theorem filter_sublist_of_imp {α : Type} (p q : α → Bool) :
    ∀ l : List α, (∀ x ∈ l, p x = true → q x = true) →
      List.Sublist (l.filter p) (l.filter q) := by
  intro l
  induction l with
  | nil => intro _; simp
  | cons x l ih =>
      intro h
      simp only [List.filter_cons]
      cases hp : p x with
      | true =>
          rw [h x (by simp) hp]
          exact List.Sublist.cons₂ x (ih (fun y hy => h y (by simp [hy])))
      | false =>
          cases hq : q x with
          | true => exact List.Sublist.cons x (ih (fun y hy => h y (by simp [hy])))
          | false => exact ih (fun y hy => h y (by simp [hy]))

/-- Wellformedness of a candidate's resolved names, as `parseTQLTag`
produces them from Go identifiers and tags: the table name is empty
(single-table mode) or starts with a word character, the field name is
nonempty and starts with a word character, and both consist of word
characters with at most a trailing `=`. -/
def wfCandName (c : Cand) : Prop :=
  (∀ ch ∈ c.tableName, isWordChar ch = true ∨ ch = '=') ∧
  (c.tableName = [] ∨ isWordChar (c.tableName.headD ' ') = true) ∧
  c.fieldTag.field ≠ [] ∧
  (∀ ch ∈ c.fieldTag.field, isWordChar ch = true ∨ ch = '=') ∧
  isWordChar (c.fieldTag.field.headD ' ') = true

instance wfCandName.dec : DecidablePred wfCandName := fun c => by
  unfold wfCandName
  infer_instance

/-- A wellformed candidate's qualified name compiles, and both its boundary
and its tokens match at any position whose previous character is not a word
character. -/
theorem qual_match (c : Cand) (hwf : wfCandName c) (pv : Option Char)
    (hpv : isWordOpt pv = false) (post : Str) :
    ∃ tks, toToks c.qualifiedName = some tks ∧
      wbOk pv (c.qualifiedName ++ post) = true ∧
      matchToks tks pv (c.qualifiedName ++ post) = true := by
  obtain ⟨hwt, hwth, hfne, hwff, hwfh⟩ := hwf
  by_cases htn : c.tableName = []
  · have hq : c.qualifiedName = c.fieldTag.field := by
      unfold Cand.qualifiedName
      rw [if_pos htn]
    refine ⟨c.fieldTag.field.map Tok.lit, by rw [hq]; exact toToks_lits _ hwff, ?_, ?_⟩
    · rw [hq]
      cases hfc : c.fieldTag.field with
      | nil => exact absurd hfc hfne
      | cons ch rest =>
          unfold wbOk
          rw [hpv]
          have : isWordChar ch = true := by
            have := hwfh
            rw [hfc] at this
            simpa using this
          simp [isWordOpt, this]
    · rw [hq]
      have := matchToks_lits_append c.fieldTag.field pv post []
      rw [List.append_nil] at this
      rw [this]
      rfl
  · have hq : c.qualifiedName = c.tableName ++ '.' :: c.fieldTag.field := by
      unfold Cand.qualifiedName
      rw [if_neg htn]
    refine ⟨c.tableName.map Tok.lit ++ Tok.anyc :: c.fieldTag.field.map Tok.lit,
      by rw [hq]; exact toToks_qual _ _ hwt hwff, ?_, ?_⟩
    · rw [hq]
      cases htc : c.tableName with
      | nil => exact absurd htc htn
      | cons ch rest =>
          unfold wbOk
          rw [hpv]
          have : isWordChar ch = true := by
            have := hwth
            rcases this with h | h
            · exact absurd h htn
            · rw [htc] at h
              simpa using h
          simp [isWordOpt, this]
    · rw [hq]
      have hassoc : (c.tableName ++ '.' :: c.fieldTag.field) ++ post =
          c.tableName ++ ('.' :: (c.fieldTag.field ++ post)) := by
        simp [List.append_assoc]
      rw [hassoc]
      rw [matchToks_lits_append c.tableName pv ('.' :: (c.fieldTag.field ++ post))
        (Tok.anyc :: c.fieldTag.field.map Tok.lit)]
      show (decide ¬('.' = '\n') && matchToks (c.fieldTag.field.map Tok.lit)
        (some '.') (c.fieldTag.field ++ post)) = true
      have := matchToks_lits_append c.fieldTag.field (some '.') post []
      rw [List.append_nil] at this
      rw [this]
      rfl

/-- A wellformed candidate's qualified name, occurring after nothing or
after any prefix ending in a space, is found by the compiled pattern. -/
theorem reMatch_qual_occurrence (c : Cand) (hwf : wfCandName c) (preAll post : Str)
    (hpre : preAll = [] ∨ ∃ p, preAll = p ++ [' ']) :
    ∃ tks, toToks c.qualifiedName = some tks ∧
      reMatch tks ((preAll ++ c.qualifiedName) ++ post) = true := by
  rcases hpre with rfl | ⟨p, rfl⟩
  · obtain ⟨tks, htks, hwb, hm⟩ := qual_match c hwf none rfl post
    refine ⟨tks, htks, ?_⟩
    have hs : (([] : Str) ++ c.qualifiedName) ++ post = c.qualifiedName ++ post := by simp
    rw [hs]
    unfold reMatch
    rw [hwb, hm]
    rfl
  · obtain ⟨tks, htks, hwb, hm⟩ := qual_match c hwf (some ' ') (by decide) post
    refine ⟨tks, htks, ?_⟩
    unfold reMatch
    rw [Bool.or_eq_true]
    right
    rw [reScan_iff]
    exact ⟨p, ' ', c.qualifiedName ++ post, by simp [List.append_assoc], by decide, hwb, hm⟩

/-- C8 (amended): when `Parse`'s output is itself matched by the select
regex and its first span is exactly the rewritten column list, re-running
`Parse` yields a scan plan that contains the first run's plan as an
ordered sublist: every included field's qualified name stands verbatim in
the rewritten list, so its inclusion persists — but additional fields may
newly match the rewritten text, so the two plans need not be equal. -/
theorem parse_replay_plan_sublist
    (T : GoStruct) (sql span1 : Str) (tail tail2 : List Str)
    (h1 : findSelectSpans sql = span1 :: tail)
    (h2 : findSelectSpans (Parse T sql).1 =
      (goJoin (", ".toList)
        ((planEntries T (span1 :: tail) span1 (decide (trimSpace span1 = ['*']))).map
          (fun c => c.column (goSplit [','] span1)))) :: tail2)
    (hwf : ∀ c ∈ allCands T, wfCandName c) :
    List.Sublist (Parse T sql).2 (Parse T (Parse T sql).1).2 := by
  set sa1 := decide (trimSpace span1 = ['*']) with hsa1
  set sf1 := goSplit [','] span1 with hsf1
  set E1 := planEntries T (span1 :: tail) span1 sa1 with hE1
  set NL := goJoin (", ".toList) (E1.map (fun c => c.column sf1)) with hNL
  have hplan1 : (Parse T sql).2 = E1.map Cand.loc := by
    rw [parse_spans_eq T sql span1 tail h1]
  have hplan2 : (Parse T (Parse T sql).1).2 =
      (planEntries T (NL :: tail2) NL (decide (trimSpace NL = ['*']))).map Cand.loc := by
    rw [parse_spans_eq T (Parse T sql).1 NL tail2 h2]
  rw [hplan1, hplan2, hE1]
  unfold planEntries
  apply List.Sublist.map
  apply filter_sublist_of_imp
  intro c hc hp1c
  have hcE1 : c ∈ E1 := by
    rw [hE1]
    unfold planEntries
    exact List.mem_filter.mpr ⟨hc, hp1c⟩
  unfold includeB at hp1c ⊢
  rw [Bool.and_eq_true] at hp1c
  obtain ⟨hnom, _⟩ := hp1c
  rw [hnom, Bool.true_and]
  have hcol : c.column sf1 ∈ E1.map (fun c => c.column sf1) :=
    List.mem_map_of_mem _ hcE1
  obtain ⟨pre, post, hjoin, hpre⟩ := goJoin_mem_decomp (", ".toList) _ _ hcol
  obtain ⟨b, hcolsh, hb⟩ := toSelectedField_shape c.qualifiedName sf1
  have hNLdecomp : NL = ((pre ++ b) ++ c.qualifiedName) ++ post := by
    rw [hNL, hjoin]
    unfold Cand.column
    rw [hcolsh]
    simp [List.append_assoc]
  have hpreAll : (pre ++ b) = [] ∨ ∃ p, (pre ++ b) = p ++ [' '] := by
    rcases hb with rfl | ⟨b', rfl⟩
    · rcases hpre with rfl | ⟨p', rfl⟩
      · left; rfl
      · right
        refine ⟨p' ++ [','], ?_⟩
        rw [List.append_nil, List.append_assoc]
        rfl
    · right
      exact ⟨pre ++ b', by simp [List.append_assoc]⟩
  obtain ⟨tks, htks, hrem⟩ := reMatch_qual_occurrence c (hwf c hc) (pre ++ b) post hpreAll
  simp only [List.append_assoc] at hrem
  have hcw : containsWords NL [c.qualifiedName,
      c.tableName ++ '\\' :: '.' :: c.fieldTag.field, c.fieldTag.field] = true := by
    rw [hNLdecomp]
    simp [containsWords, htks, hrem]
  have href : referencedB (NL :: tail2) c = true := by
    unfold referencedB matchesContainsWords
    simp [hcw]
  rw [href]
  rfl

/-- A two-table record where the second table's tag `u` doubles as a field
name `u` inside the first table: `T` (tag `t`) with leaf `U` (tag `u`), and
`U2` (tag `u`) with leaf `F` (tag `f`). -/
def twoTableT : GoStruct :=
  [⟨"T".toList, "t".toList, true, [⟨"U".toList, "u".toList⟩]⟩,
   ⟨"U2".toList, "u".toList, true, [⟨"F".toList, "f".toList⟩]⟩]

/-- `SELECT *` over both tables, with a subquery narrowing table `t`. -/
def sqlStar : Str := "SELECT * FROM t JOIN (SELECT t.x FROM t) AS t JOIN u".toList

/-- C8 counterexample: with `twoTableT` and `sqlStar`, the first run
rewrites the column list to `u.f` (table `t` is narrowed by its subquery
span, so only the `u` wildcard expands) and plans `[[1,0]]`; the rewritten
output still contains SELECT ... FROM spans, yet re-running `Parse` on it
plans `[[0,0],[1,0]]`: the literal text `u.f` now bare-matches the field
named `u` of table `t`. Re-running is NOT a fixed point. -/
theorem parse_not_idempotent_cex :
    findSelectSpans (Parse twoTableT sqlStar).1 ≠ [] ∧
    (Parse twoTableT (Parse twoTableT sqlStar).1).2 ≠ (Parse twoTableT sqlStar).2 := by
  constructor <;> decide

theorem parse_replay_plan_sublist_witness :
    List.Sublist (Parse twoTableT sqlStar).2
      (Parse twoTableT (Parse twoTableT sqlStar).1).2 :=
  parse_replay_plan_sublist twoTableT sqlStar "*".toList ["t.x".toList] ["t.x".toList]
    (by decide) (by decide) (by decide)
